import Mathlib

/-!
# Verification of the math_agent retrieval-augmented answer pipeline

Shallow embedding of the core pipeline of the repository
(`backend/main.py`, with the keyword guardrails shared verbatim with
`backend/utils/guardrails.py`): the input/output guardrails, the
generation-result parser `parse_generation_result`, and the `/ask`
orchestrator.

Modelling conventions:
- Python strings are modelled as `List Char` (ASCII-faithful; the Python
  functions used by the code — `str.strip`, `str.lower`, `str.splitlines`,
  `str.split`, `re` character classes — are modelled on their ASCII
  behaviour, which is the relevant one for every keyword and marker the
  code uses).
- Python floats are modelled as `ℚ`; `round(x, 3)` is modelled as
  round-half-to-even at three decimal places, which is Python's rounding
  mode.
- The external collaborators (Qdrant retrieval, Gemini generation, Serper
  web search — `backend/utils.py`) are opaque per the spec; each call
  site's return value is a field of an `Oracles` record.  The prompt
  strings built by `ask` flow only into the opaque generator, so their
  text is not modelled.
- `raise HTTPException(status, detail)` is modelled as `Except.error`
  carrying the status and detail; a Python `NameError` (evaluation of an
  unbound local) is modelled as a distinguished error constructor.
-/

namespace MathAgent

/-! ## Python string primitives -/

/-- Python `str` whitespace for ASCII: the characters stripped by
`str.strip()` and separating words for `str.split()`, and the class
matched by the regex `\s`. -/
def pyIsSpace (c : Char) : Bool :=
  c = ' ' || c = '\t' || c = '\n' || c = '\r' || c = '\x0b' || c = '\x0c'

/-- Python `str.strip()`: drop leading and trailing whitespace. -/
def stripL (l : List Char) : List Char :=
  ((l.dropWhile pyIsSpace).reverse.dropWhile pyIsSpace).reverse

/-- Python `str.lower()` (ASCII case mapping). -/
def lowerL (l : List Char) : List Char := l.map Char.toLower

/-- Line-boundary characters of Python `str.splitlines()`. -/
def isLineBreakChar (c : Char) : Bool :=
  c = '\n' || c = '\r' || c = '\x0b' || c = '\x0c' ||
  c = '\x1c' || c = '\x1d' || c = '\x1e' || c = '\x85' ||
  c.toNat = 0x2028 || c.toNat = 0x2029

/-- Split at every line-boundary character.  Python's `splitlines()`
treats `\r\n` as a single boundary and drops a trailing empty line; the
code filters out empty (after `strip`) lines right after splitting, so
this simpler splitter composed with that filter agrees with
`str.splitlines()` composed with the same filter. -/
def splitLinesAux : List Char → List Char → List (List Char)
  | [], acc => [acc.reverse]
  | c :: cs, acc =>
      if isLineBreakChar c then acc.reverse :: splitLinesAux cs []
      else splitLinesAux cs (c :: acc)

/-- The line pass `[ln.strip() for ln in txt.splitlines() if ln.strip()]`. -/
def parseLines (txt : List Char) : List (List Char) :=
  ((splitLinesAux txt []).map stripL).filter (fun l => decide (l ≠ []))

/-- Python `str.split()` with no argument: words separated by whitespace
runs, empties dropped. -/
def wordsAux : List Char → List Char → List (List Char)
  | [], acc => if acc = [] then [] else [acc.reverse]
  | c :: cs, acc =>
      if pyIsSpace c then
        if acc = [] then wordsAux cs [] else acc.reverse :: wordsAux cs []
      else wordsAux cs (c :: acc)

def pyWords (l : List Char) : List (List Char) := wordsAux l []

/-! ## The regexes of `parse_generation_result` (backend/main.py) -/

/-- The step regex `re.match(r'^(\d+)\s*[\.\)]\s*(.*)$', ln)`, returning
group 2.
The regex is deterministic: the engine takes all leading digits, skips
whitespace, requires a period or close-paren, skips whitespace, and
captures the rest of the line. -/
def matchNumbered (ln : List Char) : Option (List Char) :=
  let ds := ln.takeWhile Char.isDigit
  if ds = [] then none
  else
    match (ln.dropWhile Char.isDigit).dropWhile pyIsSpace with
    | c :: cs =>
        if c = '.' || c = ')' then some (cs.dropWhile pyIsSpace) else none
    | [] => none

/-- Case-insensitive literal-prefix match (the `re.I` alternatives are
lowercase literals); returns the remainder after the prefix. -/
def startsWithCI : List Char → List Char → Option (List Char)
  | [], rest => some rest
  | _ :: _, [] => none
  | p :: ps, c :: cs => if c.toLower = p then startsWithCI ps cs else none

/-- After an alternative of `^(final answer|answer)` matched, the regex
continues `\s*[:\-]\s*(.*)$`; the code then strips group 2. -/
def answerTail (rest : List Char) : Option (List Char) :=
  match rest.dropWhile pyIsSpace with
  | c :: cs =>
      if c = ':' || c = '-' then some (stripL (cs.dropWhile pyIsSpace)) else none
  | [] => none

/-- The answer regex
`re.match(r'^(final answer|answer)\s*[:\-]\s*(.*)$', ln, flags=re.I)`,
returning the stripped group 2 (`m2.group(2).strip()`).  When the line
starts (case-insensitively) with "final answer" it cannot also start with
"answer", so trying the alternatives in order is exact. -/
def matchAnswer (ln : List Char) : Option (List Char) :=
  match startsWithCI ("final answer".data) ln with
  | some rest => answerTail rest
  | none =>
      match startsWithCI ("answer".data) ln with
      | some rest => answerTail rest
      | none => none

/-- The class `\w` (ASCII): letters, digits, underscore — for the `\b` boundaries
of `\bC\b`. -/
def isWordChar (c : Char) : Bool := c.isAlphanum || c = '_'

/-- Scan for `re.search(r'[=\^\*/]|\\[a-z]+|\bC\b', ln)`: a math operator
character, a backslash followed by a lowercase letter, or `C` as an
isolated word.  `prev` is the character preceding the scan position. -/
def mathScan (prev : Option Char) : List Char → Bool
  | [] => false
  | c :: cs =>
      if c = '=' || c = '^' || c = '*' || c = '/' then true
      else if c = '\\' && (match cs with
                           | d :: _ => 'a' ≤ d && d ≤ 'z'
                           | [] => false) then true
      else if c = 'C' && (match prev with
                          | some p => !isWordChar p
                          | none => true)
                      && (match cs with
                          | d :: _ => !isWordChar d
                          | [] => true) then true
      else mathScan (some c) cs

def hasMathMarker (ln : List Char) : Bool := mathScan none ln

/-! ## The parser loop and post-pass -/

/-- What a single line of the loop body contributes to `steps`:
a numbered line contributes its captured content (stripped), an
answer line contributes nothing, any other line with a math marker
contributes itself. -/
def stepContrib (ln : List Char) : Option (List Char) :=
  match matchNumbered ln with
  | some content => some (stripL content)
  | none =>
      match matchAnswer ln with
      | some _ => none
      | none => if hasMathMarker ln then some ln else none

/-- What a single line contributes to `final_answer` (the last
contribution wins, as assignment in the loop overwrites). -/
def ansContrib (ln : List Char) : Option (List Char) :=
  match matchNumbered ln with
  | some _ => none
  | none => matchAnswer ln

structure ParseState where
  steps : List (List Char)
  final : List Char
deriving DecidableEq

/-- One iteration of the `for ln in lines` loop of
`parse_generation_result`. -/
def loopStep (st : ParseState) (ln : List Char) : ParseState :=
  match matchNumbered ln with
  | some content => { st with steps := st.steps ++ [stripL content] }
  | none =>
      match matchAnswer ln with
      | some ans => { st with final := ans }
      | none =>
          if hasMathMarker ln then { st with steps := st.steps ++ [ln] }
          else st

def runLoop (lines : List (List Char)) : ParseState :=
  lines.foldl loopStep ⟨[], []⟩

/-- The character class `[A-Za-z0-9\-\+\/*\^\(\)\s\._]` of the last-step
promotion regex. -/
def allowedFinalChar (c : Char) : Bool :=
  (('A' ≤ c && c ≤ 'Z') || ('a' ≤ c && c ≤ 'z') || ('0' ≤ c && c ≤ '9')) ||
  c = '-' || c = '+' || c = '/' || c = '*' || c = '^' ||
  c = '(' || c = ')' || pyIsSpace c || c = '.' || c = '_'

/-- Whether `re.match(r'^[A-Za-z0-9\-\+\/*\^\(\)\s\._]+$', s)` succeeds
and `len(s.split()) <= 8`: the promotion condition on the last step. -/
def promoCond (s : List Char) : Bool :=
  (decide (s ≠ [])) && s.all allowedFinalChar && decide ((pyWords s).length ≤ 8)

/-- The `if not final_answer and steps:` post-pass of
`parse_generation_result`. -/
def postPass (steps : List (List Char)) (final : List Char) :
    List (List Char) × List Char :=
  if final = [] then
    match steps.getLast? with
    | some last => if promoCond last then (steps.dropLast, last) else (steps, final)
    | none => (steps, final)
  else (steps, final)

/-- The function `parse_generation_result` of backend/main.py, on string input (the
`isinstance(gen_text, dict)` branch is dead here: `generate_with_gemini`
returns a string).  The constant confidence `0.6` is `3/5`. -/
def parse_generation_result (txt : List Char) :
    List (List Char) × List Char × ℚ :=
  let st := runLoop (parseLines txt)
  let pp := postPass st.steps st.final
  (pp.1, pp.2, mkRat 3 5)

/-! ## Guardrails (backend/main.py, identical to utils/guardrails.py) -/

def allowed_keywords : List (List Char) :=
  ["integrate".data, "differentiate".data, "derivative".data,
   "equation".data, "matrix".data, "limit".data, "solve".data,
   "find".data, "function".data, "value".data, "graph".data,
   "area".data, "volume".data]

def banned_keywords : List (List Char) :=
  ["violence".data, "religion".data, "politics".data,
   "hack".data, "illegal".data, "suicide".data]

/-- The test `word in question.lower()` — substring test against the lowered text
(the keywords are lowercase literals). -/
def containsKw (text kw : List Char) : Bool := decide (kw <:+: lowerL text)

/-- The function `input_guardrail`: true iff some allow-listed keyword occurs in the
lowered question. -/
def input_guardrail (question : List Char) : Bool :=
  allowed_keywords.any (fun w => containsKw question w)

/-- The function `output_guardrail`: true iff no deny-listed keyword occurs in the
lowered text. -/
def output_guardrail (text : List Char) : Bool :=
  !(banned_keywords.any (fun b => containsKw text b))

/-! ## Python `str` of a list of strings

The hit-path and fallback guardrail checks are run over
`str(steps) + final_answer`, where `steps` is a Python `list[str]`;
`str` of a list is `"[" ++ ", ".join(repr(x) for x in steps) ++ "]"`.
-/

def hexDigitChar (n : Nat) : Char :=
  if n < 10 then Char.ofNat (48 + n) else Char.ofNat (87 + n)

/-- One character of Python `repr` of a string, given the chosen quote
character: escapes backslash, the quote, newline, carriage return, tab,
and other control characters as `\xNN`. -/
def pyReprEscChar (quote : Char) (c : Char) : List Char :=
  if c = '\\' then ['\\', '\\']
  else if c = quote then ['\\', quote]
  else if c = '\n' then ['\\', 'n']
  else if c = '\r' then ['\\', 'r']
  else if c = '\t' then ['\\', 't']
  else if c.toNat < 32 || c.toNat = 127 then
    ['\\', 'x', hexDigitChar (c.toNat / 16), hexDigitChar (c.toNat % 16)]
  else [c]

/-- Python `repr` of a string: single-quoted, unless the string contains
a single quote and no double quote. -/
def pyReprStr (s : List Char) : List Char :=
  let q : Char := if s.contains '\'' && !s.contains '"' then '"' else '\''
  q :: (s.map (pyReprEscChar q)).flatten ++ [q]

/-- Python `str` of a `list[str]`. -/
def pyStrOfList (l : List (List Char)) : List Char :=
  '[' :: (List.intercalate (", ".data) (l.map pyReprStr)) ++ [']']

/-! ## Rounding

Python `round(x, 3)` rounds half to even. -/

def roundHalfEven (q : ℚ) : ℤ :=
  let f : ℤ := q.floor
  let r : ℚ := q - f
  if r < mkRat 1 2 then f
  else if mkRat 1 2 < r then f + 1
  else if f % 2 = 0 then f else f + 1

def pyRound3 (q : ℚ) : ℚ := mkRat (roundHalfEven (q * 1000)) 1000

/-! ## Data model of the `/ask` endpoint -/

/-- The payload of a Qdrant hit, as read by `payload.get(...)`:
  `none` models an absent key (`payload.get` returning `None`). -/
structure Payload where
  question : Option (List Char)
  steps : Option (List Char)
  final_answer : Option (List Char)
deriving DecidableEq

/-- A retrieval hit.  `score = none` models a hit object with no `score`
attribute (`getattr(top, "score", 0.0)` returns the default) or a `score`
of `None` (`... or 0.0` turns it into `0.0`): both are read as `0.0`. -/
structure Hit where
  score : Option ℚ
  id : List Char
  payload : Payload
deriving DecidableEq

/-- The score read `float(getattr(top, "score", 0.0) or 0.0)`. -/
def effScore (top : Hit) : ℚ := top.score.getD 0

/-- Request schema `AskIn`. -/
structure AskIn where
  question : List Char
  explain_level : List Char := "detailed".data
  user_id : Option (List Char) := none
deriving DecidableEq

/-- Response schema `AskOut`. -/
structure AskOut where
  steps : List (List Char)
  final_answer : List Char
  sources : List (List Char)
  confidence : ℚ
deriving DecidableEq

/-- A failure of `ask`: an `HTTPException(status, detail)`, or a Python
`NameError` from evaluating an unbound local variable. -/
inductive AskErr where
  | httpExc (status : Nat) (detail : List Char)
  | nameError (var : List Char)
deriving DecidableEq

def emptyInputErr : AskErr := .httpExc 400 ("Empty question provided.".data)

def offDomainErr : AskErr :=
  .httpExc 400 ("This AI agent only supports mathematical questions.".data)

def unsafeHitErr : AskErr :=
  .httpExc 400 ("Unsafe or off-topic content detected in model output.".data)

def unsafeFallbackErr : AskErr :=
  .httpExc 400 ("Unsafe or irrelevant content detected in model output.".data)

def isUnsafeOutputErr (e : AskErr) : Bool :=
  e = unsafeHitErr || e = unsafeFallbackErr

/-- The return values of the external collaborators for one request:
`kb_search(q, top_k)`, `web_search_fallback(q)`, and the result of
`generate_with_gemini` at each of the two call sites (at most one of
which is invoked per request). -/
structure Oracles where
  kbHits : List Hit
  webCtx : List Char
  genHitPath : List Char
  genFallbackPath : List Char

/-- Default of `KB_THRESHOLD = float(os.getenv("KB_THRESHOLD", 0.78))`. -/
def KB_THRESHOLD_default : ℚ := mkRat 78 100

/-- The retrieval-hit branch body of `ask` (entered when `hits` is
non-empty and `score >= KB_THRESHOLD`). -/
def mainHit (top : Hit) (o : Oracles) : Except AskErr AskOut :=
  let kb_steps := top.payload.steps.getD []
  let kb_answer := top.payload.final_answer.getD []
  let pr := parse_generation_result o.genHitPath
  let steps := pr.1
  let final_answer := pr.2.1
  let conf := pr.2.2
  if !output_guardrail (pyStrOfList steps ++ final_answer) then
    .error unsafeHitErr
  else
    let steps := if steps = [] then (if kb_steps ≠ [] then [kb_steps] else []) else steps
    let final_answer := if final_answer = [] then kb_answer else final_answer
    .ok { steps := steps
          final_answer := final_answer
          sources := [top.id]
          confidence := pyRound3 (max conf (effScore top)) }

/-- The web-search fallback tail of `ask`.  The prompt built from
`web_search_fallback`'s context feeds only the opaque generator.  When
the parsed `steps` list is empty, the expression `steps or [str(gen)]`
evaluates the local `gen`, which is never bound on this path (only the
hit branch assigns it, and that branch never falls through): Python
raises `NameError`. -/
def mainFallback (o : Oracles) : Except AskErr AskOut :=
  let pr := parse_generation_result o.genFallbackPath
  let steps := pr.1
  let final_answer := pr.2.1
  let conf := pr.2.2
  if !output_guardrail (pyStrOfList steps ++ final_answer) then
    .error unsafeFallbackErr
  else if steps = [] then
    .error (.nameError ("gen".data))
  else
    .ok { steps := steps
          final_answer := final_answer
          sources := []
          confidence := pyRound3 conf }

/-- The `/ask` endpoint of backend/main.py. -/
def mainAsk (KB_THRESHOLD : ℚ) (o : Oracles) (req : AskIn) :
    Except AskErr AskOut :=
  let q := stripL req.question
  if q = [] then .error emptyInputErr
  else if !input_guardrail q then .error offDomainErr
  else
    match o.kbHits with
    | top :: _ =>
        if effScore top ≥ KB_THRESHOLD then mainHit top o
        else mainFallback o
    | [] => mainFallback o

/-- Which branch the orchestrator takes once validation has passed:
`true` iff `hits` is non-empty and the top score clears the threshold. -/
def hitTaken (thr : ℚ) (o : Oracles) : Bool :=
  match o.kbHits with
  | top :: _ => decide (effScore top ≥ thr)
  | [] => false

/-- The generator output consumed by the request (the hit-path call or
the fallback call). -/
def genUsed (thr : ℚ) (o : Oracles) : List Char :=
  if hitTaken thr o then o.genHitPath else o.genFallbackPath

/-- The text over which `ask` runs the output guardrail:
`str(steps) + final_answer` for the parsed generation result. -/
def guardedOutput (thr : ℚ) (o : Oracles) : List Char :=
  pyStrOfList (parse_generation_result (genUsed thr o)).1 ++
    (parse_generation_result (genUsed thr o)).2.1

end MathAgent

deriving instance DecidableEq for Except

namespace MathAgent

/-! ## General lemmas: the parser loop as a `filterMap` -/

/-- The last element of a list, or a default: the value left in a
variable that the loop overwrites on each contribution. -/
def lastOrD : List (List Char) → List Char → List Char
  | [], d => d
  | x :: l, _ => lastOrD l x

theorem lastOrD_nil (d : List Char) : lastOrD [] d = d := rfl

theorem lastOrD_cons (x d : List Char) (l : List (List Char)) :
    lastOrD (x :: l) d = lastOrD l x := rfl

theorem loopStep_eq (st : ParseState) (ln : List Char) :
    loopStep st ln =
      ⟨st.steps ++ (stepContrib ln).toList, (ansContrib ln).getD st.final⟩ := by
  unfold loopStep stepContrib ansContrib
  rcases h1 : matchNumbered ln with _ | c
  · rcases h2 : matchAnswer ln with _ | a
    · cases h3 : hasMathMarker ln <;> simp
    · simp
  · simp

theorem foldl_loop (ls : List (List Char)) : ∀ st : ParseState,
    ls.foldl loopStep st =
      ⟨st.steps ++ ls.filterMap stepContrib,
       lastOrD (ls.filterMap ansContrib) st.final⟩ := by
  induction ls with
  | nil => intro st; simp [lastOrD]
  | cons ln ls ih =>
      intro st
      rw [List.foldl_cons, ih (loopStep st ln), loopStep_eq]
      rcases hs : stepContrib ln with _ | b <;>
        rcases h : ansContrib ln with _ | a <;>
          simp [List.filterMap_cons, hs, h, lastOrD_cons]

theorem runLoop_eq (ls : List (List Char)) :
    runLoop ls = ⟨ls.filterMap stepContrib, lastOrD (ls.filterMap ansContrib) []⟩ := by
  rw [runLoop, foldl_loop]
  rfl

/-! ## General lemmas: trimming -/

/-- A list with no leading whitespace. -/
def leftTrim (l : List Char) : Prop := l.dropWhile pyIsSpace = l

/-- A list with no trailing whitespace. -/
def rightTrim (l : List Char) : Prop :=
  l.reverse.dropWhile pyIsSpace = l.reverse

theorem leftTrim_head {l : List Char} (h : leftTrim l) {c : Char}
    {rest : List Char} (he : l = c :: rest) : pyIsSpace c = false := by
  by_contra hc
  have hc' : pyIsSpace c = true := by
    cases hval : pyIsSpace c
    · exact absurd hval hc
    · rfl
  unfold leftTrim at h
  rw [he, List.dropWhile_cons_of_pos hc'] at h
  have hsuf : rest.dropWhile pyIsSpace <:+ rest := List.dropWhile_suffix pyIsSpace
  have hlen := hsuf.length_le
  rw [h] at hlen
  simp at hlen

theorem leftTrim_of_eq_dropWhile {l m : List Char}
    (h : l = m.dropWhile pyIsSpace) : leftTrim l := by
  subst h
  unfold leftTrim
  cases hd : m.dropWhile pyIsSpace with
  | nil => rfl
  | cons c rest =>
      have := List.head?_dropWhile_not pyIsSpace m
      rw [hd] at this
      simp only [List.head?_cons] at this
      rw [List.dropWhile_cons_of_neg]
      simp [this]

theorem prefix_leftTrim {s m : List Char} (hp : s <+: m) (h : leftTrim m) :
    leftTrim s := by
  cases hs : s with
  | nil => rfl
  | cons c rest =>
      obtain ⟨t, ht⟩ := hp
      rw [hs] at ht
      have hc : pyIsSpace c = false := leftTrim_head h (by rw [← ht]; rfl)
      unfold leftTrim
      rw [List.dropWhile_cons_of_neg]
      simp [hc]

theorem suffix_rightTrim {s l : List Char} (hsf : s <:+ l) (h : rightTrim l) :
    rightTrim s :=
  prefix_leftTrim ( List.reverse_prefix.mpr hsf) h

theorem stripL_prefix_dropWhile (l : List Char) :
    stripL l <+: l.dropWhile pyIsSpace := by
  have hsf : (l.dropWhile pyIsSpace).reverse.dropWhile pyIsSpace <:+
      (l.dropWhile pyIsSpace).reverse := List.dropWhile_suffix pyIsSpace
  have := List.reverse_prefix.mpr hsf
  rw [List.reverse_reverse] at this
  exact this

theorem stripL_leftTrim (l : List Char) : leftTrim (stripL l) :=
  prefix_leftTrim (stripL_prefix_dropWhile l) (leftTrim_of_eq_dropWhile rfl)

theorem stripL_rightTrim (l : List Char) : rightTrim (stripL l) := by
  unfold rightTrim stripL
  rw [List.reverse_reverse]
  exact leftTrim_of_eq_dropWhile rfl

theorem stripL_eq_self {l : List Char} (h1 : leftTrim l) (h2 : rightTrim l) :
    stripL l = l := by
  unfold stripL
  rw [h1, h2, List.reverse_reverse]

theorem stripL_idem (l : List Char) : stripL (stripL l) = stripL l :=
  stripL_eq_self (stripL_leftTrim l) (stripL_rightTrim l)

/-- Every line produced by `parseLines` is non-empty and is the `strip`
of some raw line (hence itself trimmed on both sides). -/
theorem mem_parseLines {txt : List Char} {ln : List Char}
    (h : ln ∈ parseLines txt) :
    ln ≠ [] ∧ leftTrim ln ∧ rightTrim ln := by
  unfold parseLines at h
  rw [List.mem_filter] at h
  obtain ⟨hmem, hne⟩ := h
  rw [List.mem_map] at hmem
  obtain ⟨raw, _, hraw⟩ := hmem
  subst hraw
  refine ⟨by simpa using hne, stripL_leftTrim raw, stripL_rightTrim raw⟩

/-! ## General lemmas: the validated `ask` and substrings through `strip` -/

/-- Once the question has passed the empty check and the input guardrail,
`ask` dispatches on the retrieval outcome. -/
theorem mainAsk_valid (thr : ℚ) (o : Oracles) (req : AskIn)
    (h1 : stripL req.question ≠ [])
    (h2 : input_guardrail (stripL req.question) = true) :
    mainAsk thr o req =
      match o.kbHits with
      | top :: _ => if effScore top ≥ thr then mainHit top o else mainFallback o
      | [] => mainFallback o := by
  unfold mainAsk
  simp [h1, h2]

/-- The stripped list `stripL l` occurs inside `l`. -/
theorem stripL_decomp (l : List Char) :
    l.takeWhile pyIsSpace ++ stripL l ++
      ((l.dropWhile pyIsSpace).reverse.takeWhile pyIsSpace).reverse = l := by
  have h2 := congrArg List.reverse
    (List.takeWhile_append_dropWhile pyIsSpace (l.dropWhile pyIsSpace).reverse)
  rw [List.reverse_append, List.reverse_reverse] at h2
  rw [List.append_assoc]
  unfold stripL
  rw [h2, List.takeWhile_append_dropWhile]

/-- A substring of the lowered, stripped text is a substring of the
lowered text. -/
theorem infix_lower_strip {kw l : List Char}
    (h : kw <:+: lowerL (stripL l)) : kw <:+: lowerL l := by
  obtain ⟨s, t, hst⟩ := h
  refine ⟨lowerL (l.takeWhile pyIsSpace) ++ s,
          t ++ lowerL (((l.dropWhile pyIsSpace).reverse.takeWhile pyIsSpace).reverse), ?_⟩
  have hl : lowerL l =
      lowerL (l.takeWhile pyIsSpace) ++ lowerL (stripL l) ++
        lowerL (((l.dropWhile pyIsSpace).reverse.takeWhile pyIsSpace).reverse) := by
    conv_lhs => rw [← stripL_decomp l]
    simp [lowerL]
  rw [hl, ← hst]
  simp [List.append_assoc]

/-- The output guardrail fails exactly when some deny-listed keyword is a
substring of the lowered text. -/
theorem output_guardrail_false_iff (t : List Char) :
    output_guardrail t = false ↔ ∃ kw ∈ banned_keywords, kw <:+: lowerL t := by
  unfold output_guardrail containsKw
  simp [List.any_eq_true]

/-! ## Claim C2 -/

/-- C2: for every request (that passes validation), the retrieval-hit
path is chosen iff the retrieval client returns at least one hit and the
top hit's effective score is at least the threshold — inclusively at the
boundary — and otherwise the web-search fallback path is taken. -/
theorem ask_hit_path_iff_top_score_ge_threshold
    (thr : ℚ) (o : Oracles) (req : AskIn)
    (h1 : stripL req.question ≠ [])
    (h2 : input_guardrail (stripL req.question) = true) :
    (∀ top rest, o.kbHits = top :: rest →
        (effScore top ≥ thr → mainAsk thr o req = mainHit top o) ∧
        (effScore top < thr → mainAsk thr o req = mainFallback o)) ∧
    (o.kbHits = [] → mainAsk thr o req = mainFallback o) := by
  rw [mainAsk_valid thr o req h1 h2]
  constructor
  · intro top rest hh
    rw [hh]
    exact ⟨fun hge => if_pos hge, fun hlt => if_neg (not_le.mpr hlt)⟩
  · intro hh
    rw [hh]

def reqBd : AskIn := { question := "Solve the equation x + 1 = 3".data }

def hitBd : Hit :=
  { score := some (mkRat 78 100)
    id := "kb-17".data
    payload := { question := some ("Solve x + 1 = 3".data)
                 steps := some ("Subtract 1".data)
                 final_answer := some ("x = 2".data) } }

def oBd : Oracles :=
  { kbHits := [hitBd]
    webCtx := []
    genHitPath := "1. Subtract 1 from both sides\nFinal Answer: x = 2".data
    genFallbackPath := [] }

/-- Witness for C2 at the exact boundary: with the default threshold 0.78
and a top score of exactly 0.78, the hit path is chosen. -/
theorem ask_hit_path_iff_top_score_ge_threshold_witness :
    mainAsk KB_THRESHOLD_default oBd reqBd = mainHit hitBd oBd :=
  ((ask_hit_path_iff_top_score_ge_threshold KB_THRESHOLD_default oBd reqBd
      (by decide) (by decide)).1 hitBd [] rfl).1 (by decide)

/-! ## Claim C9 -/

/-- C9: an empty or whitespace-only question fails with the `EmptyInput`
error regardless of every collaborator's value (so before any external
call), and that error is distinct from the `OffDomain` error. -/
theorem ask_empty_question_emptyInput :
    (∀ (thr : ℚ) (o : Oracles) (req : AskIn),
        stripL req.question = [] → mainAsk thr o req = .error emptyInputErr) ∧
    emptyInputErr ≠ offDomainErr := by
  constructor
  · intro thr o req h
    unfold mainAsk
    simp [h]
  · decide

def oC9 : Oracles :=
  { kbHits := [hitBd], webCtx := [], genHitPath := [], genFallbackPath := [] }

/-- Witness for C9: a whitespace-only question is rejected as empty. -/
theorem ask_empty_question_emptyInput_witness :
    mainAsk KB_THRESHOLD_default oC9 { question := " \t ".data } =
      .error emptyInputErr :=
  ask_empty_question_emptyInput.1 KB_THRESHOLD_default oC9
    { question := " \t ".data } (by decide)

/-! ## Claim C10 -/

/-- C10: a non-empty hit list whose top hit has no usable score is read
as score `0.0` and, for any positive threshold, the request proceeds down
the fallback path (no exception is raised at the score read). -/
theorem ask_missing_score_fallback
    (thr : ℚ) (o : Oracles) (req : AskIn) (top : Hit) (rest : List Hit)
    (h1 : stripL req.question ≠ [])
    (h2 : input_guardrail (stripL req.question) = true)
    (hh : o.kbHits = top :: rest) (hs : top.score = none) (hpos : 0 < thr) :
    effScore top = 0 ∧ mainAsk thr o req = mainFallback o := by
  have he : effScore top = 0 := by simp [effScore, hs]
  refine ⟨he, ?_⟩
  rw [mainAsk_valid thr o req h1 h2, hh]
  show (if effScore top ≥ thr then mainHit top o else mainFallback o) = mainFallback o
  rw [he]
  exact if_neg (not_le.mpr hpos)

def hitNoScore : Hit :=
  { score := none
    id := "kb-3".data
    payload := { question := none, steps := none, final_answer := none } }

def oC10 : Oracles :=
  { kbHits := [hitNoScore]
    webCtx := []
    genHitPath := []
    genFallbackPath := "1. Add the numbers\nFinal Answer: 4".data }

/-- Witness for C10 at a concrete request. -/
theorem ask_missing_score_fallback_witness :
    effScore hitNoScore = 0 ∧
      mainAsk KB_THRESHOLD_default oC10 { question := "solve 2 + 2".data } =
        mainFallback oC10 :=
  ask_missing_score_fallback KB_THRESHOLD_default oC10
    { question := "solve 2 + 2".data } hitNoScore [] (by decide) (by decide)
    rfl rfl (by norm_num [KB_THRESHOLD_default])

/-! ## Claim C3 -/

def fillerText : List Char :=
  "Sure, happy to help with anything you need today.".data

def oC3 : Oracles :=
  { kbHits := [], webCtx := [], genHitPath := [], genFallbackPath := fillerText }

def reqC3 : AskIn := { question := "solve 2 plus 2".data }

/-- C3 (failing-input evaluation): on the fallback path, a generator
output with no numbered line, no final-answer line and no math-marker
line parses to `([], "", 0.6)`, but `ask` then evaluates
`steps or [str(gen)]` with the local `gen` unbound (it is only assigned
inside the retrieval-hit branch, which is never entered on this path), so
the request raises a `NameError` instead of returning the empty
well-formed response the specification requires. -/
theorem ask_fallback_degenerate_output_raises :
    parse_generation_result fillerText = ([], [], mkRat 3 5) ∧
    mainAsk KB_THRESHOLD_default oC3 reqC3 = .error (.nameError ("gen".data)) := by
  constructor
  · decide
  · decide

/-! ## Claim C5 -/

/-- C5: `accepts_input` is true iff the lowered text contains an
allow-listed keyword as a substring; consequently a question that is not
whitespace-only but contains no allow-listed keyword fails with the
`OffDomain` error regardless of every collaborator's value (so before any
retrieval, web-search or generation call). -/
theorem input_guardrail_iff_and_offDomain :
    (∀ t : List Char,
        input_guardrail t = true ↔ ∃ kw ∈ allowed_keywords, kw <:+: lowerL t) ∧
    (∀ (thr : ℚ) (o : Oracles) (req : AskIn),
        stripL req.question ≠ [] →
        (∀ kw ∈ allowed_keywords, ¬ kw <:+: lowerL req.question) →
        mainAsk thr o req = .error offDomainErr) := by
  have hiff : ∀ t : List Char,
      input_guardrail t = true ↔ ∃ kw ∈ allowed_keywords, kw <:+: lowerL t := by
    intro t
    unfold input_guardrail containsKw
    simp [List.any_eq_true]
  refine ⟨hiff, ?_⟩
  intro thr o req h1 h2
  have hg : input_guardrail (stripL req.question) = false := by
    cases hval : input_guardrail (stripL req.question)
    · rfl
    · exfalso
      obtain ⟨kw, hkw, hinf⟩ := (hiff _).mp hval
      exact h2 kw hkw (infix_lower_strip hinf)
  unfold mainAsk
  simp [h1, hg]

def oC5 : Oracles :=
  { kbHits := [hitBd], webCtx := [], genHitPath := [], genFallbackPath := [] }

def reqC5 : AskIn := { question := "what is the meaning of life".data }

/-- Witness for C5: an on-topic-free question is rejected off-domain. -/
theorem input_guardrail_iff_and_offDomain_witness :
    mainAsk KB_THRESHOLD_default oC5 reqC5 = .error offDomainErr :=
  input_guardrail_iff_and_offDomain.2 KB_THRESHOLD_default oC5 reqC5
    (by decide) (by decide)

/-! ## Claim C4 -/

/-- C4: a request that takes the retrieval-hit path and returns a
response reports confidence `round(max(0.6, score), 3)` — the parser's
constant confidence `0.6` maxed with the retrieval score, rounded to 3
decimal places — and sources equal to exactly the single retrieved
record's identifier. -/
theorem ask_hit_confidence_and_sources
    (thr : ℚ) (o : Oracles) (req : AskIn) (top : Hit) (rest : List Hit)
    (out : AskOut)
    (h1 : stripL req.question ≠ [])
    (h2 : input_guardrail (stripL req.question) = true)
    (hh : o.kbHits = top :: rest) (hs : effScore top ≥ thr)
    (hok : mainAsk thr o req = .ok out) :
    out.confidence = pyRound3 (max (mkRat 3 5) (effScore top)) ∧
    out.sources = [top.id] := by
  rw [mainAsk_valid thr o req h1 h2, hh] at hok
  rw [show (match top :: rest with
      | top :: _ => if effScore top ≥ thr then mainHit top o else mainFallback o
      | [] => mainFallback o) = if effScore top ≥ thr then mainHit top o
        else mainFallback o from rfl, if_pos hs] at hok
  cases hg : output_guardrail
      (pyStrOfList (parse_generation_result o.genHitPath).1 ++
        (parse_generation_result o.genHitPath).2.1) with
  | false =>
      simp only [mainHit, hg] at hok
      simp at hok
  | true =>
      simp only [mainHit, hg, Bool.not_true, Bool.false_eq_true, if_false,
        Except.ok.injEq] at hok
      have hconf : (parse_generation_result o.genHitPath).2.2 = mkRat 3 5 := rfl
      rw [← hok]
      exact ⟨by rw [hconf], rfl⟩

def hitC4 : Hit :=
  { score := some (mkRat 91 100)
    id := "rec-1".data
    payload := { question := some ("derivative of x^3".data)
                 steps := some ("Power rule".data)
                 final_answer := some ("3x^2".data) } }

def oC4 : Oracles :=
  { kbHits := [hitC4]
    webCtx := []
    genHitPath := "1. Apply power rule\n2. d/dx(x^3)=3x^2\nFinal Answer: 3x^2".data
    genFallbackPath := [] }

def reqC4 : AskIn := { question := "Differentiate f(x) = x^3".data }

def outC4 : AskOut :=
  { steps := ["Apply power rule".data, "d/dx(x^3)=3x^2".data]
    final_answer := "3x^2".data
    sources := ["rec-1".data]
    confidence := mkRat 91 100 }

/-- Witness for C4 at a concrete hit-path request with score 0.91. -/
theorem ask_hit_confidence_and_sources_witness :
    outC4.confidence = pyRound3 (max (mkRat 3 5) (effScore hitC4)) ∧
    outC4.sources = [hitC4.id] :=
  ask_hit_confidence_and_sources KB_THRESHOLD_default oC4 reqC4 hitC4 [] outC4
    (by decide) (by decide) rfl (by decide) (by with_unfolding_all decide)

/-! ## Claim C1 -/

def oC1ex : Oracles :=
  { kbHits := []
    webCtx := []
    genHitPath := []
    genFallbackPath := "1. ha\n2. ck".data }

def reqC1ex : AskIn := { question := "solve this".data }

def outC1ex : AskOut :=
  { steps := ["ha".data]
    final_answer := "ck".data
    sources := []
    confidence := mkRat 3 5 }

/-- Counterexample to C1 as stated: the code checks
`str(steps) + final_answer` — the Python list representation, whose
quote/comma separators interrupt keyword occurrences that span a step
boundary — not the plain concatenation of the steps and the final
answer.  Here the parsed result is `steps = ["ha"]`,
`final_answer = "ck"`: their concatenation contains the deny-listed
keyword "hack", yet `ask` returns a success response. -/
theorem ask_concat_keyword_not_always_rejected :
    (∃ kw ∈ banned_keywords,
        kw <:+: lowerL (outC1ex.steps.flatten ++ outC1ex.final_answer)) ∧
    mainAsk KB_THRESHOLD_default oC1ex reqC1ex = .ok outC1ex := by
  constructor
  · exact ⟨"hack".data, by decide, by decide⟩
  · with_unfolding_all decide

/-- C1 (amended): on both the retrieval-hit path and the fallback path,
`ask` runs the output guardrail over the Python string representation of
the parsed steps list concatenated with the final answer
(`str(steps) + final_answer`); whenever that text contains a deny-listed
keyword as a case-insensitive substring, `ask` fails with the
unsafe-output error of the path taken and returns no content. -/
theorem ask_unsafe_output_rejected
    (thr : ℚ) (o : Oracles) (req : AskIn)
    (h1 : stripL req.question ≠ [])
    (h2 : input_guardrail (stripL req.question) = true)
    (hkw : ∃ kw ∈ banned_keywords, kw <:+: lowerL (guardedOutput thr o)) :
    mainAsk thr o req =
      .error (if hitTaken thr o then unsafeHitErr else unsafeFallbackErr) := by
  have hg : output_guardrail (guardedOutput thr o) = false :=
    (output_guardrail_false_iff _).mpr hkw
  rw [mainAsk_valid thr o req h1 h2]
  rcases hl : o.kbHits with _ | ⟨top, rest⟩
  · have ht : hitTaken thr o = false := by simp [hitTaken, hl]
    have hgen : genUsed thr o = o.genFallbackPath := by simp [genUsed, ht]
    unfold guardedOutput at hg
    rw [hgen] at hg
    rw [ht]
    simp only [mainFallback, hg, Bool.not_false, if_true, Bool.false_eq_true,
      if_false]
  · show (if effScore top ≥ thr then mainHit top o else mainFallback o) =
      .error (if hitTaken thr o then unsafeHitErr else unsafeFallbackErr)
    by_cases hge : effScore top ≥ thr
    · have ht : hitTaken thr o = true := by simp [hitTaken, hl, hge]
      have hgen : genUsed thr o = o.genHitPath := by simp [genUsed, ht]
      unfold guardedOutput at hg
      rw [hgen] at hg
      rw [if_pos hge, ht]
      simp only [mainHit, hg, Bool.not_false, if_true]
    · have ht : hitTaken thr o = false := by
        simp only [hitTaken, hl, decide_eq_false_iff_not]
        exact hge
      have hgen : genUsed thr o = o.genFallbackPath := by simp [genUsed, ht]
      unfold guardedOutput at hg
      rw [hgen] at hg
      rw [if_neg hge, ht]
      simp only [mainFallback, hg, Bool.not_false, if_true, Bool.false_eq_true,
        if_false]

def oC1w : Oracles :=
  { kbHits := []
    webCtx := []
    genHitPath := []
    genFallbackPath := "1. use violence\n2. x = 2".data }

def reqC1w : AskIn := { question := "solve this".data }

/-- Witness for the amended C1 on a concrete fallback request whose
parsed steps contain a deny-listed keyword. -/
theorem ask_unsafe_output_rejected_witness :
    mainAsk KB_THRESHOLD_default oC1w reqC1w =
      .error (if hitTaken KB_THRESHOLD_default oC1w then unsafeHitErr
              else unsafeFallbackErr) :=
  ask_unsafe_output_rejected KB_THRESHOLD_default oC1w reqC1w
    (by decide) (by decide)
    ⟨"violence".data, by decide, by with_unfolding_all decide⟩

/-! ## Claim C6 -/

/-- The step-line pattern as the specification words it: optional leading
whitespace, digits, a period or close-paren, optional whitespace, then
content; returns the captured content after the numeral. -/
def numberedLineSpec (ln : List Char) : Option (List Char) :=
  let l1 := ln.dropWhile pyIsSpace
  if l1.takeWhile Char.isDigit = [] then none
  else
    match l1.dropWhile Char.isDigit with
    | c :: cs => if c = '.' || c = ')' then some (cs.dropWhile pyIsSpace) else none
    | [] => none

theorem stepContrib_of_numberedLineSpec {ln c : List Char}
    (hlt : leftTrim ln) (hrt : rightTrim ln)
    (hspec : numberedLineSpec ln = some c) : stepContrib ln = some c := by
  have hlt' : List.dropWhile pyIsSpace ln = ln := hlt
  simp only [numberedLineSpec, hlt'] at hspec
  by_cases hds : ln.takeWhile Char.isDigit = []
  · rw [if_pos hds] at hspec
    exact absurd hspec (by simp)
  · rw [if_neg hds] at hspec
    rcases hdrop : ln.dropWhile Char.isDigit with _ | ⟨c', cs⟩
    · rw [hdrop] at hspec
      exact absurd hspec (by simp)
    · rw [hdrop] at hspec
      dsimp only at hspec
      cases hcc : (c' = '.' || c' = ')') with
      | false =>
          rw [hcc] at hspec
          exact absurd hspec (by simp)
      | true =>
          rw [hcc, if_pos rfl] at hspec
          have hcsp : pyIsSpace c' = false := by
            rcases Bool.or_eq_true_iff.mp hcc with h | h
            · rw [decide_eq_true_eq.mp h]; rfl
            · rw [decide_eq_true_eq.mp h]; rfl
          have hcontent : c = cs.dropWhile pyIsSpace := by
            exact (Option.some.injEq _ _).mp hspec.symm
          have hstrip : stripL (cs.dropWhile pyIsSpace) = cs.dropWhile pyIsSpace := by
            refine stripL_eq_self (leftTrim_of_eq_dropWhile rfl) ?_
            refine suffix_rightTrim ?_ hrt
            calc cs.dropWhile pyIsSpace
                <:+ cs := List.dropWhile_suffix pyIsSpace
              _ <:+ c' :: cs := List.suffix_cons c' cs
              _ <:+ ln := by rw [← hdrop]; exact List.dropWhile_suffix Char.isDigit
          unfold stepContrib matchNumbered
          rw [if_neg hds, hdrop, List.dropWhile_cons_of_neg (by simp [hcsp])]
          dsimp only
          rw [if_pos hcc]
          dsimp only
          rw [hstrip]
          exact congrArg some hcontent.symm

/-- C6: the loop phase of the parser collects, in input order, exactly
the per-line contributions, and every parser line matching the
numbered-step pattern (optional leading whitespace, digits, a period or
close-paren, optional whitespace, then content) contributes exactly the
captured content after the numeral — not the whole line. -/
theorem parser_numbered_lines_append_content (txt : List Char) :
    (runLoop (parseLines txt)).steps = (parseLines txt).filterMap stepContrib ∧
    ∀ ln ∈ parseLines txt, ∀ c, numberedLineSpec ln = some c →
      stepContrib ln = some c := by
  constructor
  · rw [runLoop_eq]
  · intro ln hln c hspec
    obtain ⟨-, hlt, hrt⟩ := mem_parseLines hln
    exact stepContrib_of_numberedLineSpec hlt hrt hspec

def txtC6 : List Char := "1. Apply rule\nFinal Answer: 2".data

/-- Witness for C6: a concrete numbered line contributes its captured
content, not the whole line. -/
theorem parser_numbered_lines_append_content_witness :
    stepContrib ("1. Apply rule".data) = some ("Apply rule".data) :=
  (parser_numbered_lines_append_content txtC6).2
    ("1. Apply rule".data) (by decide) ("Apply rule".data) (by decide)

/-! ## Claim C7 -/

/-- The character class of the promotion rule as the specification words
it: alphanumerics, the operators, parentheses, periods, underscores (and
the whitespace separating tokens). -/
def specFinalChar (c : Char) : Bool :=
  c.isAlphanum || c = '-' || c = '+' || c = '/' || c = '*' || c = '^' ||
  c = '(' || c = ')' || c = '.' || c = '_' || pyIsSpace c

/-- The post-pass exactly as claim C7 words it ("consists only of [the
allowed characters] and has at most 8 whitespace-delimited tokens"),
read with the vacuous-truth meaning on an empty last step. -/
def postPassC7 (steps : List (List Char)) (final : List Char) :
    List (List Char) × List Char :=
  if final = [] then
    match steps.getLast? with
    | some last =>
        if last.all specFinalChar && decide ((pyWords last).length ≤ 8) then
          (steps.dropLast, last)
        else (steps, final)
    | none => (steps, final)
  else (steps, final)

/-- The post-pass as amended: the promotion additionally requires the
last step to be non-empty (the code's regex uses `+`, not `*`). -/
def postPassC7ne (steps : List (List Char)) (final : List Char) :
    List (List Char) × List Char :=
  if final = [] then
    match steps.getLast? with
    | some last =>
        if decide (last ≠ []) && last.all specFinalChar &&
            decide ((pyWords last).length ≤ 8) then
          (steps.dropLast, last)
        else (steps, final)
    | none => (steps, final)
  else (steps, final)

/-- Counterexample to C7 as stated: on `"1. foo\n2."` the loop yields
`steps = ["foo", ""]` and no final answer; the empty last step vacuously
consists only of allowed characters and has 0 ≤ 8 tokens, so the stated
rule would promote it, but the code's regex `^[...]+$` requires a
non-empty match and leaves the parse unchanged. -/
theorem parser_promotion_empty_last_step_not_promoted :
    (runLoop (parseLines ("1. foo\n2.".data))).final = [] ∧
    (runLoop (parseLines ("1. foo\n2.".data))).steps ≠ [] ∧
    ((parse_generation_result ("1. foo\n2.".data)).1,
      (parse_generation_result ("1. foo\n2.".data)).2.1) ≠
      postPassC7 (runLoop (parseLines ("1. foo\n2.".data))).steps
        (runLoop (parseLines ("1. foo\n2.".data))).final := by
  refine ⟨by decide, by decide, by decide⟩

theorem allowedFinalChar_eq_spec (c : Char) :
    allowedFinalChar c = specFinalChar c := by
  rw [Bool.eq_iff_iff]
  unfold allowedFinalChar specFinalChar
  simp [Char.isAlphanum, Char.isAlpha, Char.isDigit, Char.isUpper,
    Char.isLower]
  tauto

theorem all_allowedFinalChar_eq (s : List Char) :
    s.all allowedFinalChar = s.all specFinalChar := by
  congr 1
  funext c
  exact allowedFinalChar_eq_spec c

/-- C7 (amended): when the loop captured no final answer and produced a
non-empty steps list, the parser promotes the last step to the final
answer and removes it from the steps exactly when that step is non-empty,
consists only of the allowed characters, and has at most 8
whitespace-delimited tokens; otherwise it leaves both unchanged. -/
theorem parser_promotion_postPass (txt : List Char)
    (hf : (runLoop (parseLines txt)).final = [])
    (hs : (runLoop (parseLines txt)).steps ≠ []) :
    ((parse_generation_result txt).1, (parse_generation_result txt).2.1) =
      postPassC7ne (runLoop (parseLines txt)).steps
        (runLoop (parseLines txt)).final := by
  have hpair : ((parse_generation_result txt).1,
      (parse_generation_result txt).2.1) =
      postPass (runLoop (parseLines txt)).steps
        (runLoop (parseLines txt)).final := rfl
  rw [hpair]
  unfold postPass postPassC7ne
  rw [hf]
  rcases hlast : (runLoop (parseLines txt)).steps.getLast? with _ | last
  · rfl
  · have hcond : promoCond last =
        (decide (last ≠ []) && last.all specFinalChar &&
          decide ((pyWords last).length ≤ 8)) := by
      unfold promoCond
      rw [all_allowedFinalChar_eq]
    simp only [hcond]

def oC7w : Oracles :=
  { kbHits := []
    webCtx := []
    genHitPath := []
    genFallbackPath := "1. Use the power rule\n2. 3x^2".data }

/-- Witness for the amended C7: a short terminal expression is promoted,
and the result agrees with the amended rule at a concrete input. -/
theorem parser_promotion_postPass_witness :
    ((parse_generation_result (oC7w.genFallbackPath)).1,
      (parse_generation_result (oC7w.genFallbackPath)).2.1) =
      postPassC7ne (runLoop (parseLines (oC7w.genFallbackPath))).steps
        (runLoop (parseLines (oC7w.genFallbackPath))).final :=
  parser_promotion_postPass (oC7w.genFallbackPath) (by decide) (by decide)

/-! ## Claim C8: reconstruction

The claim's reconstruction: the steps joined back as numbered-step lines
`"1. ..."`, `"2. ..."`, followed by a `"Final Answer: ..."` line. -/

def digitChars : List Char := "0123456789".data

/-- Decimal numeral of a positive index (digits most-significant
first). -/
def natDigits (n : Nat) : List Char :=
  if h : n < 10 then [digitChars.getD n '0']
  else natDigits (n / 10) ++ [digitChars.getD (n % 10) '0']
termination_by n
decreasing_by
  exact Nat.div_lt_self (by omega) (by omega)

def numberLines (i : Nat) : List (List Char) → List (List Char)
  | [] => []
  | x :: xs => (natDigits i ++ '.' :: ' ' :: x) :: numberLines (i + 1) xs

/-- Join lines with a newline separator. -/
def joinNL : List (List Char) → List Char
  | [] => []
  | [l] => l
  | l :: ls => l ++ '\n' :: joinNL ls

/-- The claim's reconstruction of a parse result. -/
def reconstructText (steps : List (List Char)) (final : List Char) :
    List Char :=
  joinNL (numberLines 1 steps ++ [("Final Answer: ".data) ++ final])

/-- A string that can appear as a parsed step or final answer: trimmed on
both sides and free of line-boundary characters. -/
def CleanLn (l : List Char) : Prop :=
  leftTrim l ∧ rightTrim l ∧ ∀ c ∈ l, isLineBreakChar c = false

theorem cleanLn_nil : CleanLn [] := ⟨rfl, rfl, by simp⟩

theorem mem_natDigits {n : Nat} {c : Char} (h : c ∈ natDigits n) :
    c ∈ digitChars := by
  induction n using Nat.strong_induction_on with
  | _ n ih =>
      rw [natDigits] at h
      by_cases h10 : n < 10
      · rw [dif_pos h10] at h
        rcases List.mem_singleton.mp h with rfl
        interval_cases n <;> decide
      · rw [dif_neg h10] at h
        rcases List.mem_append.mp h with hm | hm
        · exact ih (n / 10) (Nat.div_lt_self (by omega) (by omega)) hm
        · rcases List.mem_singleton.mp hm with rfl
          obtain ⟨k, hk, hklt⟩ : ∃ k, n % 10 = k ∧ k < 10 :=
            ⟨n % 10, rfl, Nat.mod_lt n (by omega)⟩
          rw [hk]
          interval_cases k <;> decide

theorem natDigits_ne_nil (n : Nat) : natDigits n ≠ [] := by
  rw [natDigits]
  by_cases h10 : n < 10
  · rw [dif_pos h10]; simp
  · rw [dif_neg h10]; simp

theorem digit_isDigit {c : Char} (h : c ∈ digitChars) : c.isDigit = true := by
  fin_cases h <;> decide

theorem digit_not_space {c : Char} (h : c ∈ digitChars) :
    pyIsSpace c = false := by
  fin_cases h <;> decide

theorem digit_not_break {c : Char} (h : c ∈ digitChars) :
    isLineBreakChar c = false := by
  fin_cases h <;> decide

/-! ### Scanning over an all-satisfying block -/

theorem takeWhile_append_all {p : Char → Bool} {l1 l2 : List Char}
    (h : ∀ c ∈ l1, p c = true) :
    (l1 ++ l2).takeWhile p = l1 ++ l2.takeWhile p := by
  induction l1 with
  | nil => simp
  | cons c t ih =>
      rw [List.cons_append, List.takeWhile_cons_of_pos (h c (by simp)),
        ih (fun d hd => h d (by simp [hd])), List.cons_append]

theorem dropWhile_append_all {p : Char → Bool} {l1 l2 : List Char}
    (h : ∀ c ∈ l1, p c = true) :
    (l1 ++ l2).dropWhile p = l2.dropWhile p := by
  induction l1 with
  | nil => simp
  | cons c t ih =>
      rw [List.cons_append, List.dropWhile_cons_of_pos (h c (by simp))]
      exact ih (fun d hd => h d (by simp [hd]))

theorem leftTrim_append_of_ne {a b : List Char} (ha : leftTrim a)
    (hne : a ≠ []) : leftTrim (a ++ b) := by
  rcases hd : a with _ | ⟨c, t⟩
  · exact absurd hd hne
  · have hc : pyIsSpace c = false := leftTrim_head ha hd
    subst hd
    unfold leftTrim
    rw [List.cons_append, List.dropWhile_cons_of_neg (by simp [hc])]

/-! ### Splitting the reconstructed text back into its lines -/

theorem splitLinesAux_nil (acc : List Char) :
    splitLinesAux [] acc = [acc.reverse] := rfl

theorem splitLinesAux_cons (c : Char) (cs acc : List Char) :
    splitLinesAux (c :: cs) acc =
      if isLineBreakChar c then acc.reverse :: splitLinesAux cs []
      else splitLinesAux cs (c :: acc) := rfl

theorem splitLinesAux_block {l : List Char}
    (hl : ∀ c ∈ l, isLineBreakChar c = false) :
    ∀ (cs acc : List Char),
      splitLinesAux (l ++ cs) acc = splitLinesAux cs (l.reverse ++ acc) := by
  induction l with
  | nil => intro cs acc; simp
  | cons c t ih =>
      intro cs acc
      rw [List.cons_append, splitLinesAux_cons,
        if_neg (by simp [hl c (by simp)]),
        ih (fun d hd => hl d (by simp [hd])) cs (c :: acc)]
      simp

theorem splitLinesAux_newline (cs acc : List Char) :
    splitLinesAux ('\n' :: cs) acc = acc.reverse :: splitLinesAux cs [] := by
  rw [splitLinesAux_cons, if_pos (by decide)]

theorem splitLines_joinNL :
    ∀ ls : List (List Char), ls ≠ [] →
      (∀ l ∈ ls, ∀ c ∈ l, isLineBreakChar c = false) →
      splitLinesAux (joinNL ls) [] = ls := by
  intro ls
  induction ls with
  | nil => intro h; exact absurd rfl h
  | cons l ls ih =>
      intro _ hnb
      rcases hls : ls with _ | ⟨l2, ls2⟩
      · show splitLinesAux (joinNL [l]) [] = [l]
        unfold joinNL
        rw [show (l : List Char) = l ++ [] from by simp,
          splitLinesAux_block (by intro c hc; exact hnb l (by simp) c (by simpa using hc)) [] [],
          splitLinesAux_nil]
        simp
      · subst hls
        show splitLinesAux (joinNL (l :: l2 :: ls2)) [] = l :: l2 :: ls2
        unfold joinNL
        rw [splitLinesAux_block (hnb l (by simp)) ('\n' :: joinNL (l2 :: ls2)) [],
          List.append_nil, splitLinesAux_newline, List.reverse_reverse]
        rw [ih (by simp) (fun x hx => hnb x (by simp [hx]))]

/-! ### Cleanliness of parse outputs -/

theorem stripL_subset (l : List Char) : ∀ c ∈ stripL l, c ∈ l := by
  intro c hc
  rw [← stripL_decomp l]
  simp [hc]

theorem matchNumbered_content_suffix {ln x : List Char}
    (h : matchNumbered ln = some x) : x <:+ ln := by
  unfold matchNumbered at h
  by_cases hds : ln.takeWhile Char.isDigit = []
  · rw [if_pos hds] at h
    exact absurd h (by simp)
  · rw [if_neg hds] at h
    rcases hdrop : (ln.dropWhile Char.isDigit).dropWhile pyIsSpace with _ | ⟨c', cs⟩
    · rw [hdrop] at h
      exact absurd h (by simp)
    · rw [hdrop] at h
      dsimp only at h
      cases hcc : (c' = '.' || c' = ')') with
      | false =>
          rw [hcc] at h
          exact absurd h (by simp)
      | true =>
          rw [hcc, if_pos rfl] at h
          have hx : x = cs.dropWhile pyIsSpace :=
            ((Option.some.injEq _ _).mp h).symm
          subst hx
          calc cs.dropWhile pyIsSpace
              <:+ cs := List.dropWhile_suffix pyIsSpace
            _ <:+ c' :: cs := List.suffix_cons c' cs
            _ <:+ ln.dropWhile Char.isDigit := by
                rw [← hdrop]; exact List.dropWhile_suffix pyIsSpace
            _ <:+ ln := List.dropWhile_suffix Char.isDigit

theorem startsWithCI_suffix :
    ∀ {kw l rest : List Char}, startsWithCI kw l = some rest → rest <:+ l := by
  intro kw
  induction kw with
  | nil =>
      intro l rest h
      unfold startsWithCI at h
      rcases (Option.some.injEq _ _).mp h with rfl
      rfl
  | cons p ps ih =>
      intro l rest h
      rcases l with _ | ⟨c, cs⟩
      · exact absurd h (by simp [startsWithCI])
      · unfold startsWithCI at h
        by_cases hc : c.toLower = p
        · rw [if_pos hc] at h
          exact (ih h).trans (List.suffix_cons c cs)
        · rw [if_neg hc] at h
          exact absurd h (by simp)

theorem answerTail_clean {rest x : List Char}
    (hnb : ∀ c ∈ rest, isLineBreakChar c = false)
    (h : answerTail rest = some x) : CleanLn x := by
  unfold answerTail at h
  rcases hdrop : rest.dropWhile pyIsSpace with _ | ⟨c', cs⟩
  · rw [hdrop] at h
    exact absurd h (by simp)
  · rw [hdrop] at h
    dsimp only at h
    cases hcc : (c' = ':' || c' = '-') with
    | false =>
        rw [hcc] at h
        exact absurd h (by simp)
    | true =>
        rw [hcc, if_pos rfl] at h
        have hx : x = stripL (cs.dropWhile pyIsSpace) :=
          ((Option.some.injEq _ _).mp h).symm
        subst hx
        refine ⟨stripL_leftTrim _, stripL_rightTrim _, ?_⟩
        intro c hc
        have hsub : c ∈ rest := by
          have h1 : c ∈ cs.dropWhile pyIsSpace :=
            stripL_subset (cs.dropWhile pyIsSpace) c hc
          have h2 : cs.dropWhile pyIsSpace <:+ rest := by
            calc cs.dropWhile pyIsSpace
                <:+ cs := List.dropWhile_suffix pyIsSpace
              _ <:+ c' :: cs := List.suffix_cons c' cs
              _ <:+ rest := by
                  rw [← hdrop]; exact List.dropWhile_suffix pyIsSpace
          exact h2.subset h1
        exact hnb c hsub

theorem clean_of_stepContrib {ln x : List Char}
    (hlt : leftTrim ln) (hrt : rightTrim ln)
    (hnb : ∀ c ∈ ln, isLineBreakChar c = false)
    (h : stepContrib ln = some x) : CleanLn x := by
  unfold stepContrib at h
  rcases hm : matchNumbered ln with _ | content
  · rw [hm] at h
    rcases ha : matchAnswer ln with _ | a
    · rw [ha] at h
      by_cases hmm : hasMathMarker ln = true
      · rw [hmm, if_pos rfl] at h
        rcases (Option.some.injEq _ _).mp h with rfl
        exact ⟨hlt, hrt, hnb⟩
      · rw [Bool.not_eq_true] at hmm
        rw [hmm] at h
        exact absurd h (by simp)
    · rw [ha] at h
      exact absurd h (by simp)
  · rw [hm] at h
    rcases (Option.some.injEq _ _).mp h with rfl
    refine ⟨stripL_leftTrim _, stripL_rightTrim _, ?_⟩
    intro c hc
    exact hnb c ((matchNumbered_content_suffix hm).subset (stripL_subset _ c hc))

theorem clean_of_matchAnswer {ln x : List Char}
    (hnb : ∀ c ∈ ln, isLineBreakChar c = false)
    (h : matchAnswer ln = some x) : CleanLn x := by
  unfold matchAnswer at h
  rcases h1 : startsWithCI ("final answer".data) ln with _ | rest
  · rw [h1] at h
    rcases h2 : startsWithCI ("answer".data) ln with _ | rest
    · rw [h2] at h
      exact absurd h (by simp)
    · rw [h2] at h
      exact answerTail_clean
        (fun c hc => hnb c ((startsWithCI_suffix h2).subset hc)) h
  · rw [h1] at h
    exact answerTail_clean
      (fun c hc => hnb c ((startsWithCI_suffix h1).subset hc)) h

theorem clean_of_ansContrib {ln x : List Char}
    (hnb : ∀ c ∈ ln, isLineBreakChar c = false)
    (h : ansContrib ln = some x) : CleanLn x := by
  unfold ansContrib at h
  rcases hm : matchNumbered ln with _ | content
  · rw [hm] at h
    exact clean_of_matchAnswer hnb h
  · rw [hm] at h
    exact absurd h (by simp)

theorem splitLinesAux_no_break :
    ∀ (cs acc : List Char), (∀ c ∈ acc, isLineBreakChar c = false) →
      ∀ l ∈ splitLinesAux cs acc, ∀ c ∈ l, isLineBreakChar c = false := by
  intro cs
  induction cs with
  | nil =>
      intro acc hacc l hl c hc
      rw [splitLinesAux_nil] at hl
      rcases List.mem_singleton.mp hl with rfl
      exact hacc c (List.mem_reverse.mp hc)
  | cons d cs ih =>
      intro acc hacc l hl c hc
      rw [splitLinesAux_cons] at hl
      by_cases hbr : isLineBreakChar d = true
      · rw [if_pos hbr] at hl
        rcases List.mem_cons.mp hl with rfl | hl2
        · exact hacc c (List.mem_reverse.mp hc)
        · exact ih [] (by simp) l hl2 c hc
      · rw [if_neg hbr] at hl
        refine ih (d :: acc) ?_ l hl c hc
        intro e he
        rcases List.mem_cons.mp he with rfl | he2
        · exact Bool.not_eq_true _ ▸ hbr
        · exact hacc e he2

theorem parseLines_clean {txt ln : List Char} (h : ln ∈ parseLines txt) :
    CleanLn ln ∧ ln ≠ [] := by
  unfold parseLines at h
  rw [List.mem_filter] at h
  obtain ⟨hmem, hne⟩ := h
  rw [List.mem_map] at hmem
  obtain ⟨raw, hraw, hln⟩ := hmem
  subst hln
  refine ⟨⟨stripL_leftTrim raw, stripL_rightTrim raw, ?_⟩, by simpa using hne⟩
  intro c hc
  exact splitLinesAux_no_break txt [] (by simp) raw hraw c
    (stripL_subset raw c hc)

theorem lastOrD_cases (l : List (List Char)) (d : List Char) :
    lastOrD l d = d ∨ lastOrD l d ∈ l := by
  induction l generalizing d with
  | nil => exact Or.inl rfl
  | cons x t ih =>
      rw [lastOrD_cons]
      rcases ih x with h | h
      · exact Or.inr (by rw [h]; simp)
      · exact Or.inr (by simp [h])

theorem runLoop_clean (txt : List Char) :
    (∀ x ∈ (runLoop (parseLines txt)).steps, CleanLn x) ∧
    CleanLn (runLoop (parseLines txt)).final := by
  rw [runLoop_eq]
  constructor
  · intro x hx
    rcases List.mem_filterMap.mp hx with ⟨ln, hln, hc⟩
    obtain ⟨⟨hlt, hrt, hnb⟩, _⟩ := parseLines_clean hln
    exact clean_of_stepContrib hlt hrt hnb hc
  · rcases lastOrD_cases ((parseLines txt).filterMap ansContrib) [] with h | h
    · rw [show (ParseState.mk ((parseLines txt).filterMap stepContrib)
        (lastOrD ((parseLines txt).filterMap ansContrib) [])).final =
        lastOrD ((parseLines txt).filterMap ansContrib) [] from rfl, h]
      exact cleanLn_nil
    · rcases List.mem_filterMap.mp h with ⟨ln, hln, hc⟩
      obtain ⟨⟨_, _, hnb⟩, _⟩ := parseLines_clean hln
      exact clean_of_ansContrib hnb hc

theorem parse_output_clean (txt : List Char) :
    (∀ x ∈ (parse_generation_result txt).1, CleanLn x) ∧
    CleanLn (parse_generation_result txt).2.1 := by
  obtain ⟨hsteps, hfinal⟩ := runLoop_clean txt
  have h1 : (parse_generation_result txt).1 =
      (postPass (runLoop (parseLines txt)).steps
        (runLoop (parseLines txt)).final).1 := rfl
  have h2 : (parse_generation_result txt).2.1 =
      (postPass (runLoop (parseLines txt)).steps
        (runLoop (parseLines txt)).final).2 := rfl
  rw [h1, h2]
  unfold postPass
  by_cases hF : (runLoop (parseLines txt)).final = []
  · rw [if_pos hF]
    rcases hlast : (runLoop (parseLines txt)).steps.getLast? with _ | last
    · exact ⟨hsteps, hF ▸ hfinal⟩
    · dsimp only
      by_cases hp : promoCond last = true
      · rw [hp, if_pos rfl]
        refine ⟨?_, hsteps last (List.mem_of_mem_getLast? hlast)⟩
        intro x hx
        exact hsteps x ((List.dropLast_sublist _).subset hx)
      · rw [Bool.not_eq_true] at hp
        rw [hp]
        exact ⟨hsteps, hF ▸ hfinal⟩
  · rw [if_neg hF]
    exact ⟨hsteps, hfinal⟩

/-- When the parse result has an empty final answer and non-empty steps,
the post-pass made no change and the last step fails the promotion
condition. -/
theorem parse_no_promo (txt : List Char)
    (hf : (parse_generation_result txt).2.1 = [])
    (hs : (parse_generation_result txt).1 ≠ []) :
    (parse_generation_result txt).1 = (runLoop (parseLines txt)).steps ∧
    (runLoop (parseLines txt)).final = [] ∧
    ∀ last, (parse_generation_result txt).1.getLast? = some last →
      promoCond last = false := by
  have h1 : (parse_generation_result txt).1 =
      (postPass (runLoop (parseLines txt)).steps
        (runLoop (parseLines txt)).final).1 := rfl
  have h2 : (parse_generation_result txt).2.1 =
      (postPass (runLoop (parseLines txt)).steps
        (runLoop (parseLines txt)).final).2 := rfl
  rw [h1] at hs ⊢
  rw [h2] at hf
  unfold postPass at hs hf ⊢
  by_cases hF : (runLoop (parseLines txt)).final = []
  · rw [if_pos hF] at hs hf ⊢
    rcases hlast : (runLoop (parseLines txt)).steps.getLast? with _ | last
    · rw [hlast] at hs
      dsimp only at hs
      exact absurd (List.getLast?_eq_none_iff.mp hlast) hs
    · rw [hlast] at hs hf
      dsimp only at hs hf
      by_cases hp : promoCond last = true
      · rw [hp, if_pos rfl] at hf
        have : last ≠ [] := by
          have := hp
          unfold promoCond at this
          simp only [Bool.and_eq_true, decide_eq_true_eq] at this
          exact this.1.1
        exact absurd hf this
      · rw [Bool.not_eq_true] at hp
        dsimp only
        rw [hp] at hs ⊢
        refine ⟨rfl, hF, ?_⟩
        intro last' hlast'
        have hl2 : (runLoop (parseLines txt)).steps.getLast? = some last' :=
          hlast'
        rw [hlast] at hl2
        rcases (Option.some.injEq _ _).mp hl2 with rfl
        exact hp
  · rw [if_neg hF] at hf
    exact absurd hf hF

/-! ### The reconstructed lines, stripped and matched -/

theorem natDigits_head_not_space (i : Nat) {rest : List Char} :
    (natDigits i ++ rest).dropWhile pyIsSpace = natDigits i ++ rest := by
  obtain ⟨d, tl, hd⟩ := List.exists_cons_of_ne_nil (natDigits_ne_nil i)
  rw [hd, List.cons_append, List.dropWhile_cons_of_neg]
  rw [digit_not_space (mem_natDigits (by rw [hd]; simp))]
  simp

theorem strip_numbered_nil (i : Nat) :
    stripL (natDigits i ++ '.' :: ' ' :: ([] : List Char)) =
      natDigits i ++ ['.'] := by
  unfold stripL
  rw [natDigits_head_not_space i, List.reverse_append]
  rw [show ('.' :: ' ' :: ([] : List Char)).reverse = [' ', '.'] from rfl]
  rw [show ([' ', '.'] ++ (natDigits i).reverse : List Char) =
    ' ' :: ('.' :: (natDigits i).reverse) from rfl]
  rw [List.dropWhile_cons_of_pos (by decide),
    List.dropWhile_cons_of_neg (by decide)]
  rw [List.reverse_cons, List.reverse_reverse]

theorem strip_numbered_cons (i : Nat) {x : List Char} (hx : CleanLn x)
    (hne : x ≠ []) :
    stripL (natDigits i ++ '.' :: ' ' :: x) = natDigits i ++ '.' :: ' ' :: x := by
  obtain ⟨hlt, hrt, _⟩ := hx
  refine stripL_eq_self ?_ ?_
  · exact natDigits_head_not_space i
  · unfold rightTrim
    rw [List.reverse_append,
      show ('.' :: ' ' :: x).reverse = x.reverse ++ [' ', '.'] from by simp]
    rw [List.append_assoc]
    exact leftTrim_append_of_ne hrt (by simpa using hne)

theorem matchNumbered_digits_dot (i : Nat) (rest : List Char) :
    matchNumbered (natDigits i ++ '.' :: rest) =
      some (rest.dropWhile pyIsSpace) := by
  unfold matchNumbered
  have hall : ∀ c ∈ natDigits i, Char.isDigit c = true :=
    fun c hc => digit_isDigit (mem_natDigits hc)
  rw [takeWhile_append_all hall, dropWhile_append_all hall,
    List.takeWhile_cons_of_neg (by decide), List.dropWhile_cons_of_neg (by decide)]
  rw [if_neg (by simp [natDigits_ne_nil i]),
    List.dropWhile_cons_of_neg (by decide)]
  dsimp only
  rw [if_pos (by decide)]

theorem startsWithCI_of_lower :
    ∀ {pre kw : List Char}, pre.map Char.toLower = kw →
      ∀ rest, startsWithCI kw (pre ++ rest) = some rest := by
  intro pre
  induction pre with
  | nil =>
      intro kw h rest
      rw [← h]
      rfl
  | cons c ps ih =>
      intro kw h rest
      rw [← h, List.map_cons, List.cons_append]
      unfold startsWithCI
      rw [if_pos rfl]
      exact ih rfl rest

theorem matchAnswer_FA (tail : List Char) :
    matchAnswer ("Final Answer".data ++ ':' :: tail) =
      some (stripL (tail.dropWhile pyIsSpace)) := by
  unfold matchAnswer
  rw [startsWithCI_of_lower (by decide) (':' :: tail)]
  dsimp only
  unfold answerTail
  rw [List.dropWhile_cons_of_neg (by decide)]
  dsimp only
  rw [if_pos (by decide)]

theorem matchNumbered_FA (tail : List Char) :
    matchNumbered ("Final Answer".data ++ ':' :: tail) = none := by
  unfold matchNumbered
  rw [show ("Final Answer".data ++ ':' :: tail) =
    'F' :: ("inal Answer".data ++ ':' :: tail) from by
      rw [show "Final Answer".data = 'F' :: "inal Answer".data from by decide]
      rfl]
  rw [List.takeWhile_cons_of_neg (by decide)]
  rw [if_pos rfl]

theorem strip_FA {f : List Char} (hf : CleanLn f) :
    stripL ("Final Answer: ".data ++ f) =
      "Final Answer".data ++ ':' :: (if f = [] then [] else ' ' :: f) := by
  obtain ⟨hlt, hrt, _⟩ := hf
  by_cases hne : f = []
  · subst hne
    rw [if_pos rfl]
    decide
  · rw [if_neg hne]
    have hshape : ("Final Answer: ".data ++ f) =
        "Final Answer".data ++ ':' :: ' ' :: f := by
      rw [show "Final Answer: ".data = "Final Answer".data ++ [':', ' '] from
        by decide]
      simp
    rw [hshape]
    refine stripL_eq_self ?_ ?_
    · rw [show ("Final Answer".data ++ ':' :: ' ' :: f) =
        'F' :: ("inal Answer".data ++ ':' :: ' ' :: f) from by
          rw [show "Final Answer".data = 'F' :: "inal Answer".data from by decide]
          rfl]
      unfold leftTrim
      rw [List.dropWhile_cons_of_neg (by decide)]
    · unfold rightTrim
      rw [List.reverse_append,
        show (':' :: ' ' :: f).reverse = f.reverse ++ [' ', ':'] from by simp,
        List.append_assoc]
      exact leftTrim_append_of_ne hrt (by simpa using hne)

/-! ### Numbered blocks of reconstructed lines -/

theorem numberLines_cons (i : Nat) (x : List Char) (xs : List (List Char)) :
    numberLines i (x :: xs) =
      (natDigits i ++ '.' :: ' ' :: x) :: numberLines (i + 1) xs := rfl

theorem numberLines_no_break {s : List (List Char)}
    (hall : ∀ x ∈ s, CleanLn x) :
    ∀ i, ∀ L ∈ numberLines i s, ∀ c ∈ L, isLineBreakChar c = false := by
  induction s with
  | nil => intro i L hL; simp [numberLines] at hL
  | cons x xs ih =>
      intro i L hL c hc
      rw [numberLines_cons] at hL
      rcases List.mem_cons.mp hL with rfl | h2
      · rcases List.mem_append.mp hc with hd | hrest
        · exact digit_not_break (mem_natDigits hd)
        · rcases List.mem_cons.mp hrest with rfl | hrest2
          · decide
          · rcases List.mem_cons.mp hrest2 with rfl | hx
            · decide
            · exact (hall x (by simp)).2.2 c hx
      · exact ih (fun y hy => hall y (by simp [hy])) (i + 1) L h2 c hc

theorem numberLines_contrib {s : List (List Char)}
    (hall : ∀ x ∈ s, CleanLn x) :
    ∀ i,
      ((numberLines i s).map stripL).filterMap stepContrib = s ∧
      ((numberLines i s).map stripL).filterMap ansContrib = [] ∧
      ∀ L ∈ (numberLines i s).map stripL, L ≠ [] := by
  induction s with
  | nil =>
      intro i
      refine ⟨rfl, rfl, by simp [numberLines]⟩
  | cons x xs ih =>
      intro i
      have hx := hall x (by simp)
      have ihr := ih (fun y hy => hall y (by simp [hy])) (i + 1)
      have hstrip : stripL (natDigits i ++ '.' :: ' ' :: x) =
          natDigits i ++ '.' :: (if x = [] then [] else ' ' :: x) := by
        by_cases hxe : x = []
        · subst hxe
          rw [if_pos rfl]
          exact strip_numbered_nil i
        · rw [if_neg hxe]
          exact strip_numbered_cons i hx hxe
      have hmn : matchNumbered
          (natDigits i ++ '.' :: (if x = [] then [] else ' ' :: x)) =
          some x := by
        rw [matchNumbered_digits_dot]
        by_cases hxe : x = []
        · subst hxe
          rw [if_pos rfl]
          rfl
        · rw [if_neg hxe, List.dropWhile_cons_of_pos (by decide),
            show x.dropWhile pyIsSpace = x from hx.1]
      have hsc : stepContrib (stripL (natDigits i ++ '.' :: ' ' :: x)) =
          some x := by
        rw [hstrip]
        unfold stepContrib
        rw [hmn]
        dsimp only
        rw [stripL_eq_self hx.1 hx.2.1]
      have hac : ansContrib (stripL (natDigits i ++ '.' :: ' ' :: x)) =
          none := by
        rw [hstrip]
        unfold ansContrib
        rw [hmn]
      have hlne : stripL (natDigits i ++ '.' :: ' ' :: x) ≠ [] := by
        rw [hstrip]
        obtain ⟨d, tl, hd⟩ := List.exists_cons_of_ne_nil (natDigits_ne_nil i)
        rw [hd]
        simp
      rw [numberLines_cons, List.map_cons, List.filterMap_cons,
        List.filterMap_cons, hsc, hac]
      refine ⟨by rw [ihr.1], by rw [ihr.2.1], ?_⟩
      intro L hL
      rcases List.mem_cons.mp hL with rfl | h2
      · exact hlne
      · exact ihr.2.2 L h2

/-! ### The loop applied to the reconstruction -/

theorem runLoop_reconstruct (S : List (List Char)) (F : List Char)
    (hS : ∀ x ∈ S, CleanLn x) (hF : CleanLn F) :
    runLoop (parseLines (reconstructText S F)) = ⟨S, F⟩ := by
  have hraws : ∀ L ∈ numberLines 1 S ++ [("Final Answer: ".data ++ F)],
      ∀ c ∈ L, isLineBreakChar c = false := by
    intro L hL c hc
    rcases List.mem_append.mp hL with h1 | h2
    · exact numberLines_no_break hS 1 L h1 c hc
    · rcases List.mem_singleton.mp h2 with rfl
      rcases List.mem_append.mp hc with hfa | hff
      · fin_cases hfa <;> decide
      · exact hF.2.2 c hff
  have hsplit := splitLines_joinNL
    (numberLines 1 S ++ [("Final Answer: ".data ++ F)]) (by simp) hraws
  have hFAne : stripL ("Final Answer: ".data ++ F) ≠ [] := by
    rw [strip_FA hF]
    simp
  have hlines : parseLines (reconstructText S F) =
      (numberLines 1 S).map stripL ++ [stripL ("Final Answer: ".data ++ F)] := by
    unfold parseLines reconstructText
    rw [hsplit, List.map_append]
    rw [List.filter_eq_self.mpr ?_]
    · rfl
    · intro a ha
      rcases List.mem_append.mp ha with h1 | h2
      · simpa using (numberLines_contrib hS 1).2.2 a h1
      · rw [List.map_cons] at h2
        rcases List.mem_singleton.mp h2 with rfl
        simpa using hFAne
  have hstepFA : stepContrib (stripL ("Final Answer: ".data ++ F)) = none := by
    rw [strip_FA hF]
    unfold stepContrib
    rw [matchNumbered_FA]
    dsimp only
    rw [matchAnswer_FA]
  have hansFA : ansContrib (stripL ("Final Answer: ".data ++ F)) = some F := by
    rw [strip_FA hF]
    unfold ansContrib
    rw [matchNumbered_FA]
    dsimp only
    rw [matchAnswer_FA]
    by_cases hFe : F = []
    · subst hFe
      rw [if_pos rfl]
      rfl
    · rw [if_neg hFe, List.dropWhile_cons_of_pos (by decide),
        show F.dropWhile pyIsSpace = F from hF.1,
        stripL_eq_self hF.1 hF.2.1]
  rw [hlines, runLoop_eq, List.filterMap_append, List.filterMap_append,
    (numberLines_contrib hS 1).1, (numberLines_contrib hS 1).2.1,
    List.filterMap_cons, List.filterMap_cons, hstepFA, hansFA]
  simp [lastOrD]

/-! ## Claim C8 -/

/-- C8: parser idempotence under reconstruction — rejoining the parsed
steps as numbered-step lines followed by a "Final Answer:" line and
re-parsing yields exactly the same steps and final answer (and the same
constant confidence). -/
theorem parse_reconstruct_idempotent (txt : List Char) :
    parse_generation_result
        (reconstructText (parse_generation_result txt).1
          (parse_generation_result txt).2.1) =
      parse_generation_result txt := by
  obtain ⟨hS, hF⟩ := parse_output_clean txt
  have hloop := runLoop_reconstruct (parse_generation_result txt).1
    (parse_generation_result txt).2.1 hS hF
  have hparse : parse_generation_result
      (reconstructText (parse_generation_result txt).1
        (parse_generation_result txt).2.1) =
      ((postPass (parse_generation_result txt).1
          (parse_generation_result txt).2.1).1,
        (postPass (parse_generation_result txt).1
          (parse_generation_result txt).2.1).2, mkRat 3 5) := by
    show (let st := runLoop (parseLines
        (reconstructText (parse_generation_result txt).1
          (parse_generation_result txt).2.1));
      let pp := postPass st.steps st.final
      (pp.1, pp.2, mkRat 3 5)) = _
    rw [hloop]
  have hpp : postPass (parse_generation_result txt).1
      (parse_generation_result txt).2.1 =
      ((parse_generation_result txt).1, (parse_generation_result txt).2.1) := by
    by_cases hF0 : (parse_generation_result txt).2.1 = []
    · by_cases hS0 : (parse_generation_result txt).1 = []
      · rw [hF0, hS0]
        rfl
      · obtain ⟨-, -, hnp⟩ := parse_no_promo txt hF0 hS0
        obtain ⟨l, hl⟩ : ∃ l, (parse_generation_result txt).1.getLast? = some l := by
          rcases h : (parse_generation_result txt).1.getLast? with _ | l
          · exact absurd (List.getLast?_eq_none_iff.mp h) hS0
          · exact ⟨l, rfl⟩
        unfold postPass
        rw [if_pos hF0, hl]
        dsimp only
        rw [hnp l hl]
        rw [hF0]
        simp
    · unfold postPass
      rw [if_neg hF0]
  rw [hparse, hpp]
  rfl

end MathAgent
